import Mathlib

/-
  Verification of the modkey keyboard-shortcut library.

  This file gives a shallow embedding of the library's core modules
  (src/utils.ts, src/manager.ts, src/emitter.ts) as executable Lean
  definitions, followed by theorems settling the specification claims.

  Modelling conventions:
  - JavaScript strings are Lean `String`s; `toLowerCase`, `trim` and
    `split('+')` are embedded as structurally recursive functions on the
    underlying character lists so that all definitions evaluate by `decide`.
  - A JavaScript `Map` keyed by strings is an association list with the
    `Map.set` update-in-place-or-append semantics.
  - A JavaScript `Set` is a duplicate-free list (insertion appends when
    absent, deletion removes the element).
  - JavaScript truthiness on strings (`if (s)`) is `s ≠ "" ` on present
    values and false on `undefined` (`Option.none`).
  - The platform is threaded explicitly as a parameter instead of being
    read from `navigator.platform`; only its classification
    (mac / windows / linux, per `getPlatform`) matters to the logic.
-/

namespace Modkey

/-- Classification of the host platform as computed by `getPlatform` in
src/utils.ts (mac when the platform string contains "mac", windows when it
contains "win", linux otherwise). -/
inductive Platform where
  | mac
  | windows
  | linux
deriving DecidableEq

/-- Embeds `isMac` from src/utils.ts. -/
def isMac (p : Platform) : Bool := p = Platform.mac

/-- Embeds the JavaScript `String.prototype.toLowerCase` as used by the
library (character-wise ASCII lower-casing). -/
def lowerStr (s : String) : String := ⟨s.data.map Char.toLower⟩

/-- Embeds `normalizeKey` from src/utils.ts: `key.toLowerCase()`. -/
def normalizeKey (key : String) : String := lowerStr key

/-- Embeds the JavaScript `String.prototype.trim` on character lists:
whitespace is dropped from both ends. -/
def trimChars (cs : List Char) : List Char :=
  ((cs.dropWhile Char.isWhitespace).reverse.dropWhile Char.isWhitespace).reverse

/-- String wrapper around `trimChars`. -/
def trimStr (s : String) : String := ⟨trimChars s.data⟩

/-- Embeds the JavaScript `String.prototype.split` with a single-character
separator: accumulates the current field (reversed) and emits it at each
separator.  Always returns at least one field. -/
def splitOnCharAux (sep : Char) (acc : List Char) : List Char → List (List Char)
  | [] => [acc.reverse]
  | c :: cs =>
    if c = sep then acc.reverse :: splitOnCharAux sep [] cs
    else splitOnCharAux sep (c :: acc) cs

/-- String wrapper around `splitOnCharAux`, modelling `keys.split('+')`. -/
def splitChar (sep : Char) (s : String) : List String :=
  (splitOnCharAux sep [] s.data).map (fun cs => ⟨cs⟩)

/-- Word characters of the JavaScript regular-expression class `\w`,
namely ASCII letters, digits and underscore; used by the word-boundary
assertion `\b` of the pattern `/\bmod\b/g`. -/
def isWordChar (c : Char) : Bool := c.isAlphanum || c = '_'

/-- Left word-boundary test of `\b` for a match starting with the word
character 'm': satisfied at the beginning of the string or after a
non-word character.  The argument is the character preceding the current
scan position, if any. -/
def boundaryL : Option Char → Bool
  | none => true
  | some c => !isWordChar c

/-- Right word-boundary test of `\b` for a match ending with the word
character 'd': satisfied at the end of the string or before a non-word
character.  The argument is the remainder of the string after the match. -/
def boundaryR : List Char → Bool
  | [] => true
  | c :: _ => !isWordChar c

/-- Embeds the global regular-expression replacement
`keys.replace(/\bmod\b/g, modifier)` from `resolvePlatformModifier` in
src/utils.ts as a left-to-right scan.  `skip` counts characters of an
already-matched occurrence still to be consumed (after emitting the
replacement for "m" we consume "o" and "d"), and `prev` is the character
at the previous position of the input, used for the left boundary test. -/
def rmAux (m : List Char) : Nat → Option Char → List Char → List Char
  | _, _, [] => []
  | Nat.succ k, _, c :: rest => rmAux m k (some c) rest
  | 0, prev, c :: rest =>
    if c = 'm' ∧ rest.take 2 = ['o', 'd'] ∧ boundaryL prev = true ∧
        boundaryR (rest.drop 2) = true then
      m ++ rmAux m 2 (some c) rest
    else
      c :: rmAux m 0 (some c) rest

/-- Replacement of every word-boundary-delimited occurrence of "mod",
starting at the beginning of the string. -/
def replaceMod (m : List Char) (cs : List Char) : List Char := rmAux m 0 none cs

/-- Platform-primary modifier chosen by `resolvePlatformModifier`:
`isMac() ? 'meta' : 'ctrl'`. -/
def platformModifier (p : Platform) : String := if isMac p then "meta" else "ctrl"

/-- Embeds `resolvePlatformModifier` from src/utils.ts:
`keys.replace(/\bmod\b/g, isMac() ? 'meta' : 'ctrl')`. -/
def resolvePlatformModifier (p : Platform) (keys : String) : String :=
  ⟨replaceMod (platformModifier p).data keys.data⟩

/-- Result of `parseKeyCombination`: a modifier collection and the literal
key.  The source stores the modifiers in a `Set`; membership is the only
operation used on it, so a list of the same elements embeds it. -/
structure ParsedCombination where
  modifiers : List String
  key : String
deriving DecidableEq

/-- Embeds `parseKeyCombination` from src/utils.ts: resolve the platform
modifier, lower-case, split on '+', trim each part; the last part is the
key, the preceding parts are the modifier set. -/
def parseKeyCombination (p : Platform) (keys : String) : ParsedCombination :=
  let parts := (splitChar '+' (lowerStr (resolvePlatformModifier p keys))).map trimStr
  { modifiers := parts.dropLast, key := parts.getLastD "" }

/-- Embeds the subset of the DOM `KeyboardEvent` consumed by the library:
the key name and the four modifier flags. -/
structure KeyboardEvent where
  key : String
  ctrlKey : Bool
  shiftKey : Bool
  altKey : Bool
  metaKey : Bool
deriving DecidableEq

/-- Embeds `matchesKeyCombination` from src/utils.ts.  The event key must
equal the parsed key, and each of the four modifier-set membership tests
must equal the corresponding event flag (`modifiers.has(x) === event.xKey`,
embedded as boolean equality with decidable list membership). -/
def matchesKeyCombination (p : Platform) (event : KeyboardEvent) (keys : String) : Bool :=
  let pc := parseKeyCombination p keys
  let eventKey := normalizeKey event.key
  if eventKey ≠ pc.key then false
  else
    let hasCtrl := decide ("ctrl" ∈ pc.modifiers) == event.ctrlKey
    let hasShift := decide ("shift" ∈ pc.modifiers) == event.shiftKey
    let hasAlt := decide ("alt" ∈ pc.modifiers) == event.altKey
    let hasMeta := decide ("meta" ∈ pc.modifiers) == event.metaKey
    hasCtrl && hasShift && hasAlt && hasMeta

/-- Embeds the `ShortcutConfig` interface from src/types.ts. Optional
fields are `Option`s, absent (`none`) by default. -/
structure ShortcutConfig where
  id : String
  name : String := ""
  description : String := ""
  keys : String
  preventDefault : Option Bool := none
  enabled : Option Bool := none
  scope : Option String := none
deriving DecidableEq

/-- Conflict record produced by `detectConflicts` in src/utils.ts. -/
structure Conflict where
  id1 : String
  id2 : String
  keys : String
deriving DecidableEq

/-- Embeds `Map.prototype.get` on a string-keyed association list. -/
def lookupStr {α : Type} (k : String) : List (String × α) → Option α
  | [] => none
  | (k', v) :: rest => if k = k' then some v else lookupStr k rest

/-- Embeds `Map.prototype.set`: replace the value of an existing key in
place (keeping its position, as a JavaScript `Map` keeps insertion order),
otherwise append the new entry at the end. -/
def mapSet {α : Type} (k : String) (v : α) : List (String × α) → List (String × α)
  | [] => [(k, v)]
  | (k', v') :: rest =>
    if k' = k then (k, v) :: rest else (k', v') :: mapSet k v rest

/-- Embeds `Map.prototype.delete`: remove the entry with the given key. -/
def mapDelete {α : Type} (k : String) : List (String × α) → List (String × α)
  | [] => []
  | (k', v') :: rest => if k' = k then rest else (k', v') :: mapDelete k rest

/-- Normalization used by `detectConflicts`:
`resolvePlatformModifier(shortcut.keys).toLowerCase()` (no trimming). -/
def normalizeCombo (p : Platform) (keys : String) : String :=
  lowerStr (resolvePlatformModifier p keys)

/-- Embeds the loop of `detectConflicts` from src/utils.ts.  `seen` is the
`seenKeys` map from normalized combination to shortcut id.  The source
tests the looked-up id with JavaScript truthiness (`if (existing)`), so a
found entry whose id is the empty string takes the `else` branch, which
re-runs `seenKeys.set` and overwrites the stored id. -/
def detectConflictsAux (p : Platform) (seen : List (String × String)) :
    List ShortcutConfig → List Conflict
  | [] => []
  | s :: rest =>
    match lookupStr (normalizeCombo p s.keys) seen with
    | some existing =>
      if existing ≠ "" then
        { id1 := existing, id2 := s.id, keys := normalizeCombo p s.keys } ::
          detectConflictsAux p seen rest
      else
        detectConflictsAux p (mapSet (normalizeCombo p s.keys) s.id seen) rest
    | none => detectConflictsAux p (mapSet (normalizeCombo p s.keys) s.id seen) rest

/-- Embeds `detectConflicts` from src/utils.ts, starting from an empty
`seenKeys` map. -/
def detectConflicts (p : Platform) (shortcuts : List ShortcutConfig) : List Conflict :=
  detectConflictsAux p [] shortcuts

/-- Modelled from the spec (section 4.4), for comparison with
`detectConflictsAux`: maintain a mapping from normalized combination to
the FIRST-seen shortcut id; every later shortcut whose normalized
combination is already in the mapping yields one conflict against the
first-seen id. -/
def conflictsSpecAux (p : Platform) (seen : List (String × String)) :
    List ShortcutConfig → List Conflict
  | [] => []
  | s :: rest =>
    match lookupStr (normalizeCombo p s.keys) seen with
    | some firstSeenId =>
      { id1 := firstSeenId, id2 := s.id, keys := normalizeCombo p s.keys } ::
        conflictsSpecAux p seen rest
    | none => conflictsSpecAux p (mapSet (normalizeCombo p s.keys) s.id seen) rest

/-- Specification-side conflict detection, starting from an empty map. -/
def conflictsSpec (p : Platform) (shortcuts : List ShortcutConfig) : List Conflict :=
  conflictsSpecAux p [] shortcuts

/-- Embeds `MODIFIER_KEYS` from src/manager.ts: the key names never
force-cleared from the pressed-key set. -/
def MODIFIER_KEYS : List String := ["meta", "control", "alt", "shift"]

/-- Embeds `Set.prototype.add` on the pressed-key set: append when
absent. -/
def addKey (k : String) (keys : List String) : List String :=
  if k ∈ keys then keys else keys ++ [k]

/-- Embeds `clearNonModifierKeys` from src/manager.ts: keep exactly the
pressed keys that are in `MODIFIER_KEYS`. -/
def clearNonModifierKeys (keys : List String) : List String :=
  keys.filter (fun k => decide (k ∈ MODIFIER_KEYS))

/-- Embeds the `continue` guard of `handleKeyDown` in src/manager.ts:
`config.scope && config.scope !== this.currentScope && config.scope !== 'global'`.
JavaScript truthiness makes an absent or empty-string scope fail the first
conjunct, so such a shortcut is never skipped. -/
def scopeSkip : Option String → String → Bool
  | none, _ => false
  | some v, current => decide (v ≠ "") && decide (v ≠ current) && decide (v ≠ "global")

/-- Eligibility of a shortcut's scope: the negation of the skip guard. -/
def scopeEligible (sc : Option String) (current : String) : Bool := !scopeSkip sc current

/-- Embeds `ShortcutEvent` from src/types.ts (the `Date.now()` timestamp
is passed in as a parameter). -/
structure ShortcutEvent where
  id : String
  timestamp : Nat
  originalEvent : KeyboardEvent
deriving DecidableEq

/-- State of a `ShortcutManager` instance relevant to key-down handling:
the shortcut table (`Map` keyed by id, in insertion order), the current
scope, the pressed-key set, and the last-triggered store value. -/
structure ManagerState where
  shortcuts : List (String × ShortcutConfig)
  currentScope : String
  pressedKeys : List String
  lastTriggered : Option ShortcutEvent
deriving DecidableEq

/-- Embeds the `for (const [id, config] of currentShortcuts)` loop of
`handleKeyDown` in src/manager.ts.  A disabled (`enabled === false`)
definition is skipped, then the scope guard, then the matcher; the first
match returns just its id, mirroring the `break` after the trigger
actions, so the returned list is the ids whose callbacks fire for this
event. -/
def dispatchLoop (p : Platform) (scope : String) (ev : KeyboardEvent) :
    List (String × ShortcutConfig) → List String
  | [] => []
  | (id, c) :: rest =>
    if c.enabled = some false then dispatchLoop p scope ev rest
    else if scopeSkip c.scope scope then dispatchLoop p scope ev rest
    else if matchesKeyCombination p ev c.keys then [id]
    else dispatchLoop p scope ev rest

/-- Combined firing condition of the dispatch loop, used to state that the
loop triggers exactly the first definition that is enabled, scope-eligible
and matched. -/
def firesOn (p : Platform) (scope : String) (ev : KeyboardEvent)
    (e : String × ShortcutConfig) : Bool :=
  decide (e.2.enabled ≠ some false) && scopeEligible e.2.scope scope &&
    matchesKeyCombination p ev e.2.keys

/-- Embeds `handleKeyDown` from src/manager.ts: add the lower-cased event
key to the pressed-key set, then run the dispatch loop; on a match, record
the last-triggered event and clear the non-modifier pressed keys.  The
second component lists the ids whose subscribers are notified. -/
def handleKeyDown (p : Platform) (now : Nat) (st : ManagerState) (ev : KeyboardEvent) :
    ManagerState × List String :=
  let pressed1 := addKey (normalizeKey ev.key) st.pressedKeys
  match dispatchLoop p st.currentScope ev st.shortcuts with
  | [] => ({ st with pressedKeys := pressed1 }, [])
  | id :: rest =>
    ({ st with
        pressedKeys := clearNonModifierKeys pressed1,
        lastTriggered := some { id := id, timestamp := now, originalEvent := ev } },
      id :: rest)

/-- Embeds `registerShortcut` from src/manager.ts (the copy-on-write `Map`
update is value-level `mapSet`). -/
def registerShortcut (c : ShortcutConfig) (t : List (String × ShortcutConfig)) :
    List (String × ShortcutConfig) :=
  mapSet c.id c t

/-- Embeds `registerShortcuts` from src/manager.ts:
`configs.forEach(config => newMap.set(config.id, config))`. -/
def registerShortcuts (configs : List ShortcutConfig)
    (t : List (String × ShortcutConfig)) : List (String × ShortcutConfig) :=
  configs.foldl (fun m c => mapSet c.id c m) t

/-- Embeds `loadShortcuts` from src/manager.ts:
`new Map(configs.map(c => [c.id, c]))`, i.e. `Map.set` iterated over the
pairs starting from the empty map. -/
def loadShortcuts (configs : List ShortcutConfig) : List (String × ShortcutConfig) :=
  registerShortcuts configs []

/-- Embeds `unregisterShortcut` from src/manager.ts. -/
def unregisterShortcut (id : String) (t : List (String × ShortcutConfig)) :
    List (String × ShortcutConfig) :=
  mapDelete id t

/-- Embeds `enableShortcut` from src/manager.ts: if a definition with the
id exists, store a copy with `enabled: true`; otherwise the map is left as
it was. -/
def enableShortcut (id : String) (t : List (String × ShortcutConfig)) :
    List (String × ShortcutConfig) :=
  match lookupStr id t with
  | some s => mapSet id { s with enabled := some true } t
  | none => t

/-- Embeds `disableShortcut` from src/manager.ts. -/
def disableShortcut (id : String) (t : List (String × ShortcutConfig)) :
    List (String × ShortcutConfig) :=
  match lookupStr id t with
  | some s => mapSet id { s with enabled := some false } t
  | none => t

/-- Embeds `getShortcut` from src/manager.ts. -/
def getShortcut (id : String) (t : List (String × ShortcutConfig)) :
    Option ShortcutConfig :=
  lookupStr id t

/-- State of a reactive `Store` from src/emitter.ts: the held value and
the listener set.  Listeners are identified by an arbitrary type with
decidable equality, standing for JavaScript function identity. -/
structure StoreState (L T : Type) where
  value : T
  listeners : List L
deriving DecidableEq

/-- Embeds `Set.prototype.add` on the listener set. -/
def addListener {L : Type} [DecidableEq L] (l : L) (ls : List L) : List L :=
  if l ∈ ls then ls else ls ++ [l]

/-- Embeds `Store.subscribe` from src/emitter.ts: register the listener;
when `immediate` is set (its default), call it once with the current
value.  The second component is the list of synchronous listener

invocations performed by the call, each paired with the value passed. -/
def storeSubscribe {L T : Type} [DecidableEq L] (l : L) (immediate : Bool)
    (s : StoreState L T) : StoreState L T × List (L × T) :=
  ({ s with listeners := addListener l s.listeners },
    if immediate then [(l, s.value)] else [])

/-- Embeds the unsubscribe closure returned by `Store.subscribe`:
`this.listeners.delete(listener)`.  On a duplicate-free `Set`, deleting an
element is removing every occurrence of it. -/
def removeListener {L T : Type} [DecidableEq L] (l : L) (s : StoreState L T) :
    StoreState L T :=
  { s with listeners := s.listeners.filter (fun x => decide (x ≠ l)) }

example : matchesKeyCombination Platform.linux ⟨"s", true, false, false, false⟩ "ctrl+s" = true := by decide
example : matchesKeyCombination Platform.linux ⟨"s", true, true, false, false⟩ "ctrl+s" = false := by decide
example : matchesKeyCombination Platform.mac ⟨"s", false, false, false, true⟩ "mod+s" = true := by decide
example : resolvePlatformModifier Platform.linux "mod+s" = "ctrl+s" := by decide
example : resolvePlatformModifier Platform.mac "a mod b" = "a meta b" := by decide
example : resolvePlatformModifier Platform.mac "mymod+s" = "mymod+s" := by decide
example : parseKeyCombination Platform.linux "ctrl + s" = ⟨["ctrl"], "s"⟩ := by decide

lemma decide_eq_iff (P : Prop) [Decidable P] (b : Bool) :
    (decide P = b) ↔ (P ↔ b = true) := by
  cases b <;> simp

/-- C1: matching a keyboard event against a combination string holds
exactly when the lower-cased event key equals the parsed literal key and,
for each of ctrl, shift, alt and meta, membership of that modifier in the
parsed modifier set coincides with the corresponding flag of the event
(exact modifier-set equality; an event with an extra modifier asserted
never matches a combination omitting it, and vice versa). -/
theorem matches_iff_exact_modifiers (p : Platform) (ev : KeyboardEvent) (keys : String) :
    matchesKeyCombination p ev keys = true ↔
      (normalizeKey ev.key = (parseKeyCombination p keys).key ∧
       ("ctrl" ∈ (parseKeyCombination p keys).modifiers ↔ ev.ctrlKey = true) ∧
       ("shift" ∈ (parseKeyCombination p keys).modifiers ↔ ev.shiftKey = true) ∧
       ("alt" ∈ (parseKeyCombination p keys).modifiers ↔ ev.altKey = true) ∧
       ("meta" ∈ (parseKeyCombination p keys).modifiers ↔ ev.metaKey = true)) := by
  by_cases hk : normalizeKey ev.key = (parseKeyCombination p keys).key
  · simp [matchesKeyCombination, hk, decide_eq_iff, and_assoc]
  · simp [matchesKeyCombination, hk]

lemma dispatchLoop_eq_find (p : Platform) (scope : String) (ev : KeyboardEvent)
    (table : List (String × ShortcutConfig)) :
    dispatchLoop p scope ev table =
      (Option.map Prod.fst (table.find? (firesOn p scope ev))).toList := by
  induction table with
  | nil => rfl
  | cons e rest ih =>
    obtain ⟨id, c⟩ := e
    by_cases h1 : c.enabled = some false
    · simp [dispatchLoop, firesOn, List.find?, h1, ih]
    · by_cases h2 : scopeSkip c.scope scope = true
      · simp [dispatchLoop, firesOn, scopeEligible, List.find?, h1, h2, ih]
      · by_cases h3 : matchesKeyCombination p ev c.keys = true
        · simp [dispatchLoop, firesOn, scopeEligible, List.find?, h1, h2, h3]
        · simp [dispatchLoop, firesOn, scopeEligible, List.find?, h1, h2, h3, ih]

/-- C3: per key-down event the dispatch loop fires exactly the first
table entry (in table order) that is enabled, scope-eligible and matched
by the matcher — the fired-id list is the first such entry or empty — and
in particular at most one shortcut fires, so every other definition,
including later entries bound to the identical combination, receives no
callback for the event. -/
theorem dispatch_first_match_wins (p : Platform) (scope : String) (ev : KeyboardEvent)
    (table : List (String × ShortcutConfig)) :
    dispatchLoop p scope ev table =
      (Option.map Prod.fst (table.find? (firesOn p scope ev))).toList ∧
    (dispatchLoop p scope ev table).length ≤ 1 := by
  refine ⟨dispatchLoop_eq_find p scope ev table, ?_⟩
  rw [dispatchLoop_eq_find p scope ev table]
  cases table.find? (firesOn p scope ev) <;> simp

/-- C5 counterexample: a definition whose scope is the empty string is
set (not `none`) and differs from both "global" and the current scope
"modal", yet the scope guard leaves it eligible and it fires, because the
source tests `config.scope` with JavaScript truthiness. -/
theorem scope_empty_string_eligible :
    scopeEligible (some "") "modal" = true ∧ (some "" : Option String) ≠ none ∧
    ("" : String) ≠ "global" ∧ ("" : String) ≠ "modal" ∧
    dispatchLoop Platform.linux "modal" ⟨"s", false, false, false, false⟩
      [("x", { id := "x", keys := "s", scope := some "" })] = ["x"] := by
  refine ⟨by decide, by decide, by decide, by decide, by decide⟩

/-- C5 amended: a definition whose scope is unset, the empty string, or
the literal global scope is always eligible; a definition with any other
scope value is eligible exactly when its scope equals the current
scope. -/
theorem scopeEligible_characterization (sc : Option String) (cur : String) :
    scopeEligible sc cur = true ↔
      (sc = none ∨ sc = some "" ∨ sc = some "global" ∨ sc = some cur) := by
  cases sc with
  | none => simp [scopeEligible, scopeSkip]
  | some v => simp [scopeEligible, scopeSkip]; tauto

lemma mem_clearNonModifier (ks : List String) (k : String) :
    k ∈ clearNonModifierKeys ks ↔ (k ∈ ks ∧ k ∈ MODIFIER_KEYS) := by
  simp [clearNonModifierKeys, List.mem_filter]

/-- C4: when a key-down fires some shortcut, the resulting pressed-key
set is exactly the modifier-key part of the set as it stood right before
the clear (the previous pressed keys plus the event key): the clear
operation removes every non-modifier key and keeps every modifier key
name that was held. -/
theorem fired_pressed_keys_modifiers_only (p : Platform) (now : Nat) (st : ManagerState)
    (ev : KeyboardEvent) (h : (handleKeyDown p now st ev).2 ≠ []) :
    (∀ (ks : List String) (k : String),
        k ∈ clearNonModifierKeys ks ↔ (k ∈ ks ∧ k ∈ MODIFIER_KEYS)) ∧
    ∀ k : String,
      k ∈ (handleKeyDown p now st ev).1.pressedKeys ↔
        (k ∈ addKey (normalizeKey ev.key) st.pressedKeys ∧ k ∈ MODIFIER_KEYS) := by
  refine ⟨mem_clearNonModifier, ?_⟩
  intro k
  unfold handleKeyDown at h ⊢
  cases hd : dispatchLoop p st.currentScope ev st.shortcuts with
  | nil => simp [hd] at h
  | cons id rest => simp [hd, mem_clearNonModifier]

/-- Sample shortcut used in concrete instantiations. -/
def cfgSave : ShortcutConfig := { id := "save", keys := "ctrl+s" }

/-- Sample manager state: one registered shortcut, ctrl held down. -/
def st0 : ManagerState := ⟨[("save", cfgSave)], "global", ["control"], none⟩

/-- Sample key-down event for ctrl+s. -/
def ev0 : KeyboardEvent := ⟨"s", true, false, false, false⟩

theorem fired_pressed_keys_modifiers_only_at_ctrl_s :
    (handleKeyDown Platform.linux 0 st0 ev0).2 ≠ [] ∧
    ("control" ∈ (handleKeyDown Platform.linux 0 st0 ev0).1.pressedKeys ↔
      ("control" ∈ addKey (normalizeKey ev0.key) st0.pressedKeys ∧
       "control" ∈ MODIFIER_KEYS)) ∧
    "s" ∉ (handleKeyDown Platform.linux 0 st0 ev0).1.pressedKeys ∧
    "control" ∈ (handleKeyDown Platform.linux 0 st0 ev0).1.pressedKeys :=
  ⟨by decide,
   (fired_pressed_keys_modifiers_only Platform.linux 0 st0 ev0 (by decide)).2 "control",
   by decide, by decide⟩

lemma lookup_mapSet_self {α : Type} (k : String) (v : α) (t : List (String × α)) :
    lookupStr k (mapSet k v t) = some v := by
  induction t with
  | nil => simp [mapSet, lookupStr]
  | cons e rest ih =>
    obtain ⟨k', v'⟩ := e
    by_cases h : k' = k
    · simp [mapSet, h, lookupStr]
    · simp [mapSet, h, lookupStr, Ne.symm h, ih]

lemma mapDelete_absent {α : Type} (k : String) (t : List (String × α))
    (h : lookupStr k t = none) : mapDelete k t = t := by
  induction t with
  | nil => rfl
  | cons e rest ih =>
    obtain ⟨k', v'⟩ := e
    by_cases hk : k = k'
    · simp [lookupStr, hk] at h
    · simp [lookupStr, hk] at h
      simp [mapDelete, Ne.symm hk, ih h]

/-- C7: enabling or disabling an id that is present stores the same
definition with the `enabled` flag set to `true` respectively `false`;
on an id that is absent, `enableShortcut`, `disableShortcut` and
`unregisterShortcut` leave the shortcut table unchanged (no definition is
created, and being total functions they raise nothing), and `getShortcut`
returns the not-found marker `none`. -/
theorem unknown_id_noop_known_id_flag (t : List (String × ShortcutConfig)) (id : String) :
    (lookupStr id t = none →
      enableShortcut id t = t ∧ disableShortcut id t = t ∧
      unregisterShortcut id t = t ∧ getShortcut id t = none) ∧
    (∀ s : ShortcutConfig, lookupStr id t = some s →
      getShortcut id (enableShortcut id t) = some { s with enabled := some true } ∧
      getShortcut id (disableShortcut id t) = some { s with enabled := some false }) := by
  constructor
  · intro h
    exact ⟨by simp [enableShortcut, h], by simp [disableShortcut, h],
      mapDelete_absent id t h, h⟩
  · intro s hs
    constructor
    · simp [enableShortcut, hs, getShortcut, lookup_mapSet_self]
    · simp [disableShortcut, hs, getShortcut, lookup_mapSet_self]

theorem unknown_id_noop_known_id_flag_at_save :
    (enableShortcut "other" [("save", cfgSave)] = [("save", cfgSave)] ∧
     disableShortcut "other" [("save", cfgSave)] = [("save", cfgSave)] ∧
     unregisterShortcut "other" [("save", cfgSave)] = [("save", cfgSave)] ∧
     getShortcut "other" [("save", cfgSave)] = none) ∧
    (getShortcut "save" (enableShortcut "save" [("save", cfgSave)]) =
       some { cfgSave with enabled := some true } ∧
     getShortcut "save" (disableShortcut "save" [("save", cfgSave)]) =
       some { cfgSave with enabled := some false }) :=
  ⟨(unknown_id_noop_known_id_flag [("save", cfgSave)] "other").1 (by decide),
   (unknown_id_noop_known_id_flag [("save", cfgSave)] "save").2 cfgSave (by decide)⟩

lemma filter_self_idem {L : Type} (p : L → Bool) (ls : List L) :
    (ls.filter p).filter p = ls.filter p := by
  induction ls with
  | nil => rfl
  | cons a rest ih => by_cases h : p a = true <;> simp [List.filter_cons, h, ih]

lemma filter_addListener {L : Type} [DecidableEq L] (l : L) (ls : List L) :
    (addListener l ls).filter (fun x => !decide (x = l)) =
      ls.filter (fun x => !decide (x = l)) := by
  unfold addListener
  by_cases h : l ∈ ls
  · simp [h]
  · simp [h, List.filter_append]

/-- C8: subscribing to the reactive container with `immediate = true`
performs exactly one synchronous listener invocation, carrying the
then-current value (which the call does not change); the unsubscribe
action removes the listener from the listener set, and running it a
second time leaves the state unchanged (idempotence). -/
theorem store_subscribe_immediate_and_unsubscribe (L T : Type) [DecidableEq L]
    (s : StoreState L T) (l : L) :
    (storeSubscribe l true s).2 = [(l, s.value)] ∧
    (storeSubscribe l true s).1.value = s.value ∧
    (removeListener l (storeSubscribe l true s).1).listeners =
      s.listeners.filter (fun x => decide (x ≠ l)) ∧
    (∀ s2 : StoreState L T, removeListener l (removeListener l s2) = removeListener l s2) ∧
    l ∉ (removeListener l (storeSubscribe l true s).1).listeners := by
  refine ⟨rfl, rfl, ?_, ?_, ?_⟩
  · simp [removeListener, storeSubscribe, filter_addListener]
  · intro s2
    cases s2
    simp [removeListener, filter_self_idem]
  · simp [removeListener, List.mem_filter]

theorem store_subscribe_immediate_and_unsubscribe_at_nat :
    (storeSubscribe 2 true (StoreState.mk 7 [1] : StoreState Nat Nat)).2 = [(2, 7)] ∧
    removeListener 2 (removeListener 2 (StoreState.mk 7 [1] : StoreState Nat Nat)) =
      removeListener 2 (StoreState.mk 7 [1] : StoreState Nat Nat) :=
  ⟨(store_subscribe_immediate_and_unsubscribe Nat Nat (StoreState.mk 7 [1]) 2).1,
   (store_subscribe_immediate_and_unsubscribe Nat Nat (StoreState.mk 7 [1]) 2).2.2.2.1
     (StoreState.mk 7 [1])⟩

lemma lookupStr_mem {α : Type} (k : String) (v : α) (t : List (String × α))
    (h : lookupStr k t = some v) : (k, v) ∈ t := by
  induction t with
  | nil => simp [lookupStr] at h
  | cons e rest ih =>
    obtain ⟨k', v'⟩ := e
    by_cases hk : k = k'
    · subst hk
      simp [lookupStr] at h
      subst h
      exact List.mem_cons_self _ _
    · simp [lookupStr, hk] at h
      exact List.mem_cons_of_mem _ (ih h)

lemma mem_mapSet {α : Type} (x : String × α) (k : String) (v : α)
    (t : List (String × α)) (h : x ∈ mapSet k v t) : x ∈ t ∨ x = (k, v) := by
  induction t with
  | nil =>
    simp [mapSet] at h
    exact Or.inr h
  | cons e rest ih =>
    obtain ⟨k', v'⟩ := e
    by_cases hk : k' = k
    · simp [mapSet, hk] at h
      rcases h with h | h
      · exact Or.inr h
      · exact Or.inl (List.mem_cons_of_mem _ h)
    · simp [mapSet, hk] at h
      rcases h with h | h
      · exact Or.inl (by simp [h])
      · rcases ih h with h' | h'
        · exact Or.inl (List.mem_cons_of_mem _ h')
        · exact Or.inr h'

lemma detect_aux_eq_spec_aux (p : Platform) :
    ∀ (shortcuts : List ShortcutConfig) (seen : List (String × String)),
    (∀ c ∈ shortcuts, c.id ≠ "") → (∀ kv ∈ seen, kv.2 ≠ "") →
    detectConflictsAux p seen shortcuts = conflictsSpecAux p seen shortcuts := by
  intro shortcuts
  induction shortcuts with
  | nil => intro seen _ _; rfl
  | cons s rest ih =>
    intro seen hs hseen
    have hsid : s.id ≠ "" := hs s (List.mem_cons_self _ _)
    have hrest : ∀ c ∈ rest, c.id ≠ "" := fun c hc => hs c (List.mem_cons_of_mem _ hc)
    cases hl : lookupStr (normalizeCombo p s.keys) seen with
    | none =>
      simp only [detectConflictsAux, conflictsSpecAux, hl]
      exact ih _ hrest (fun kv hkv =>
        (mem_mapSet kv _ _ seen hkv).elim (hseen kv) (fun he => by rw [he]; exact hsid))
    | some existing =>
      have hex : existing ≠ "" := hseen _ (lookupStr_mem _ _ _ hl)
      simp only [detectConflictsAux, conflictsSpecAux, hl, hex, if_true, ne_eq,
        not_false_eq_true, if_pos]
      rw [ih seen hrest hseen]

/-- C2 counterexample: with a first definition whose id is the empty
string, the second definition normalizes to a combination that was
already seen, yet no conflict is recorded (the source tests the stored id
with JavaScript truthiness); with a third duplicate, the reported
conflict is against the second id, not the first-seen one. -/
theorem detect_conflicts_empty_id_missed :
    normalizeCombo Platform.linux "a" = normalizeCombo Platform.linux "a" ∧
    ({ id := "", keys := "a" } : ShortcutConfig).id ≠
      ({ id := "b", keys := "a" } : ShortcutConfig).id ∧
    detectConflicts Platform.linux
      [{ id := "", keys := "a" }, { id := "b", keys := "a" }] = [] ∧
    detectConflicts Platform.linux
      [{ id := "", keys := "a" }, { id := "b", keys := "a" }, { id := "c", keys := "a" }] =
      [{ id1 := "b", id2 := "c", keys := "a" }] := by
  refine ⟨rfl, by decide, by decide, by decide⟩

/-- C2 amended: provided every shortcut id is a nonempty string, the
detector behaves as claimed: it maintains a map from normalized
combination to the first-seen shortcut id and records, for each later
definition whose normalized combination was already seen, exactly one
conflict against the first-seen id (so a third duplicate conflicts
against the first, not the second); the input list is not consumed or
altered (all definitions here are pure values).  When a first-seen id is
the empty string, the source's truthiness test instead overwrites the map
entry and reports no conflict for that duplicate. -/
theorem detect_conflicts_first_seen (p : Platform) (shortcuts : List ShortcutConfig)
    (h : ∀ c ∈ shortcuts, c.id ≠ "") :
    detectConflicts p shortcuts = conflictsSpec p shortcuts :=
  detect_aux_eq_spec_aux p shortcuts [] h (by simp)

/-- Three shortcuts sharing the combination "mod+s". -/
def threeDup : List ShortcutConfig :=
  [{ id := "a", keys := "mod+s" }, { id := "b", keys := "mod+s" },
   { id := "c", keys := "mod+s" }]

theorem detect_conflicts_first_seen_at_mod_s :
    ("a" : String) ≠ "" ∧ ("b" : String) ≠ "" ∧ ("c" : String) ≠ "" ∧
    detectConflicts Platform.linux threeDup = conflictsSpec Platform.linux threeDup ∧
    conflictsSpec Platform.linux threeDup =
      [{ id1 := "a", id2 := "b", keys := "ctrl+s" },
       { id1 := "a", id2 := "c", keys := "ctrl+s" }] :=
  ⟨by decide, by decide, by decide,
   detect_conflicts_first_seen Platform.linux threeDup (by decide), by decide⟩

/-- Keys of a string-keyed association list, in order. -/
def mapKeys {α : Type} (t : List (String × α)) : List String := t.map Prod.fst

lemma lookup_mapSet {α : Type} (k k' : String) (v : α) (t : List (String × α)) :
    lookupStr k (mapSet k' v t) = if k = k' then some v else lookupStr k t := by
  induction t with
  | nil => simp [mapSet, lookupStr]
  | cons e rest ih =>
    obtain ⟨a, b⟩ := e
    by_cases h1 : a = k'
    · subst h1
      by_cases h2 : k = a <;> simp [mapSet, lookupStr, h2]
    · by_cases h2 : k = a
      · simp [mapSet, lookupStr, h1, h2]
      · simp [mapSet, lookupStr, h1, h2, ih]

lemma mapSet_keys {α : Type} (k : String) (v : α) (t : List (String × α)) :
    mapKeys (mapSet k v t) =
      if k ∈ mapKeys t then mapKeys t else mapKeys t ++ [k] := by
  induction t with
  | nil => simp [mapSet, mapKeys]
  | cons e rest ih =>
    obtain ⟨a, b⟩ := e
    by_cases h1 : a = k
    · subst h1
      simp [mapSet, mapKeys]
    · have h1' : ¬ k = a := fun hc => h1 hc.symm
      simp only [mapKeys] at ih
      by_cases h2 : k ∈ List.map Prod.fst rest
      · simp [mapSet, mapKeys, h1, h1', h2, ih]
      · simp [mapSet, mapKeys, h1, h1', h2, ih]

lemma mapSet_nodup {α : Type} (k : String) (v : α) (t : List (String × α))
    (h : (mapKeys t).Nodup) : (mapKeys (mapSet k v t)).Nodup := by
  rw [mapSet_keys]
  by_cases hk : k ∈ mapKeys t
  · simpa [hk] using h
  · simp [hk, List.nodup_append, h]

/-- Modelled from the code's intent for C10: the last definition in the
list bearing the given id, if any. -/
def lastWithId (id : String) : List ShortcutConfig → Option ShortcutConfig
  | [] => none
  | c :: cs =>
    match lastWithId id cs with
    | some d => some d
    | none => if c.id = id then some c else none

/-- C10: registering a list of definitions (also as the initial shortcuts,
which load into an empty table) keeps the table keyed uniquely by id, and
an id that occurs several times in the list ends up mapped to the
definition appearing last in list order; ids not in the list keep their
previous definitions. -/
theorem register_duplicate_ids_last_wins (t : List (String × ShortcutConfig))
    (configs : List ShortcutConfig) (h : (mapKeys t).Nodup) :
    (mapKeys (registerShortcuts configs t)).Nodup ∧
    ∀ id, lookupStr id (registerShortcuts configs t) =
      (lastWithId id configs).orElse (fun _ => lookupStr id t) := by
  induction configs generalizing t with
  | nil =>
    exact ⟨h, fun id => by simp [registerShortcuts, lastWithId, Option.orElse]⟩
  | cons c cs ih =>
    have hstep : registerShortcuts (c :: cs) t = registerShortcuts cs (mapSet c.id c t) := rfl
    obtain ⟨ihn, ihl⟩ := ih (mapSet c.id c t) (mapSet_nodup c.id c t h)
    refine ⟨hstep ▸ ihn, ?_⟩
    intro id
    rw [hstep, ihl id]
    cases hlast : lastWithId id cs with
    | some d => simp [lastWithId, hlast, Option.orElse]
    | none =>
      by_cases hid : c.id = id
      · subst hid
        simp [lastWithId, hlast, Option.orElse, lookup_mapSet]
      · have hid' : ¬ id = c.id := fun hc => hid hc.symm
        simp [lastWithId, hlast, Option.orElse, lookup_mapSet, hid, hid']

/-- Two definitions sharing the id "a". -/
def dupA1 : ShortcutConfig := { id := "a", name := "first", keys := "ctrl+1" }

/-- Second definition with the id "a"; being later in the list, it is the
one the table retains. -/
def dupA2 : ShortcutConfig := { id := "a", name := "second", keys := "ctrl+2" }

theorem register_duplicate_ids_last_wins_at_dup :
    (mapKeys (registerShortcuts [dupA1, dupA2] [])).Nodup ∧
    lookupStr "a" (registerShortcuts [dupA1, dupA2] []) =
      (lastWithId "a" [dupA1, dupA2]).orElse (fun _ => lookupStr "a" []) ∧
    lastWithId "a" [dupA1, dupA2] = some dupA2 ∧
    loadShortcuts [dupA1, dupA2] = [("a", dupA2)] :=
  ⟨(register_duplicate_ids_last_wins [] [dupA1, dupA2] (by decide)).1,
   (register_duplicate_ids_last_wins [] [dupA1, dupA2] (by decide)).2 "a",
   by decide, by decide⟩

/-- Shortcut definition registered under "ctrl+s". -/
def demoA : ShortcutConfig := { id := "a", keys := "ctrl+s" }

/-- Shortcut definition registered under "ctrl + s" (same combination up
to the whitespace the parser trims). -/
def demoB : ShortcutConfig := { id := "b", keys := "ctrl + s" }

lemma parse_demo_eq (p : Platform) :
    parseKeyCombination p demoA.keys = parseKeyCombination p demoB.keys := by
  cases p <;> decide

/-- C9: the matcher's parser trims whitespace around '+'-separated
tokens, but the conflict detector normalizes only by platform resolution
and lower-casing; hence the distinct combination strings "ctrl+s" and
"ctrl + s", registered under distinct ids, match exactly the same
keyboard events on every platform yet are never reported as a
conflict. -/
theorem trim_mismatch_conflicts_missed :
    demoA.keys ≠ demoB.keys ∧ demoA.id ≠ demoB.id ∧
    (∀ (p : Platform) (ev : KeyboardEvent),
      matchesKeyCombination p ev demoA.keys = matchesKeyCombination p ev demoB.keys) ∧
    (∀ p : Platform, detectConflicts p [demoA, demoB] = []) := by
  refine ⟨by decide, by decide, ?_, ?_⟩
  · intro p ev
    simp [matchesKeyCombination, parse_demo_eq p]
  · intro p
    cases p <;> decide

/-- Scan state after processing a chunk of input: the last character of
the chunk when nonempty, otherwise the previous state. -/
def nextPrev : List Char → Option Char → Option Char
  | [], prev => prev
  | c :: cs, _ => nextPrev cs (some c)

/-- Wellformedness of one segment of a word/non-word decomposition of a
string: a word segment is nonempty and all word characters, a non-word
segment is nonempty and free of word characters. -/
def segWF : Bool × List Char → Bool
  | (true, w) => !w.isEmpty && w.all (fun c => isWordChar c)
  | (false, w) => !w.isEmpty && w.all (fun c => !isWordChar c)

/-- Alternation: adjacent segments have different kinds, so the
decomposition exhibits the maximal word runs of the string. -/
def altern : List (Bool × List Char) → Bool
  | [] => true
  | [_] => true
  | a :: b :: rest => (a.1 != b.1) && altern (b :: rest)

/-- Concatenation of the segments back into the string. -/
def joinSegs (segs : List (Bool × List Char)) : List Char :=
  (segs.map Prod.snd).flatten

/-- Segment-wise substitution: each word segment equal to "mod" becomes
the replacement, every other segment is unchanged. -/
def substSegs (m : List Char) (segs : List (Bool × List Char)) : List Char :=
  (segs.map (fun sg => if sg.1 = true ∧ sg.2 = ['m', 'o', 'd'] then m else sg.2)).flatten

/-- Boundary obligation on the scanner state: needed only when the
upcoming segment is a word segment. -/
def headBoundary (segs : List (Bool × List Char)) (prev : Option Char) : Prop :=
  match segs with
  | (true, _) :: _ => boundaryL prev = true
  | _ => True

lemma rmAux_zero_cons (m : List Char) (prev : Option Char) (c : Char) (rest : List Char) :
    rmAux m 0 prev (c :: rest) =
      if c = 'm' ∧ rest.take 2 = ['o', 'd'] ∧ boundaryL prev = true ∧
          boundaryR (rest.drop 2) = true then
        m ++ rmAux m 2 (some c) rest
      else c :: rmAux m 0 (some c) rest := rfl

lemma rmAux_word_inner (m : List Char) (w : List Char) : ∀ (s : List Char) (p : Char),
    isWordChar p = true → (∀ c ∈ w, isWordChar c = true) →
    rmAux m 0 (some p) (w ++ s) = w ++ rmAux m 0 (nextPrev w (some p)) s := by
  induction w with
  | nil => intro s p _ _; rfl
  | cons c w' ih =>
    intro s p hp hw
    have hc : isWordChar c = true := hw c (List.mem_cons_self _ _)
    have hcond : ¬ (c = 'm' ∧ (w' ++ s).take 2 = ['o', 'd'] ∧ boundaryL (some p) = true ∧
        boundaryR ((w' ++ s).drop 2) = true) := by
      rintro ⟨-, -, hb, -⟩
      simp [boundaryL, hp] at hb
    rw [List.cons_append, rmAux_zero_cons, if_neg hcond,
      ih s c hc (fun d hd => hw d (List.mem_cons_of_mem _ hd))]
    rfl

lemma rmAux_nonword (m : List Char) (w : List Char) : ∀ (s : List Char) (prev : Option Char),
    (∀ c ∈ w, isWordChar c = false) →
    rmAux m 0 prev (w ++ s) = w ++ rmAux m 0 (nextPrev w prev) s := by
  induction w with
  | nil => intro s prev _; rfl
  | cons c w' ih =>
    intro s prev hw
    have hc : isWordChar c = false := hw c (List.mem_cons_self _ _)
    have hcm : ¬ c = 'm' := by
      intro h
      rw [h] at hc
      exact absurd hc (by decide)
    have hcond : ¬ (c = 'm' ∧ (w' ++ s).take 2 = ['o', 'd'] ∧ boundaryL prev = true ∧
        boundaryR ((w' ++ s).drop 2) = true) := fun h => hcm h.1
    rw [List.cons_append, rmAux_zero_cons, if_neg hcond,
      ih s (some c) (fun d hd => hw d (List.mem_cons_of_mem _ hd))]
    rfl

lemma rmAux_word_notmod (m : List Char) (w : List Char) (s : List Char) (prev : Option Char)
    (hw : ∀ c ∈ w, isWordChar c = true) (hmod : w ≠ ['m', 'o', 'd'])
    (_hprev : boundaryL prev = true) (hs : boundaryR s = true) :
    rmAux m 0 prev (w ++ s) = w ++ rmAux m 0 (nextPrev w prev) s := by
  cases w with
  | nil => rfl
  | cons c w' =>
    have hcond : ¬ (c = 'm' ∧ (w' ++ s).take 2 = ['o', 'd'] ∧ boundaryL prev = true ∧
        boundaryR ((w' ++ s).drop 2) = true) := by
      rintro ⟨hc, ht, -, hb⟩
      subst hc
      cases w' with
      | nil =>
        cases s with
        | nil => simp at ht
        | cons c1 s' =>
          simp [List.take] at ht
          simp [boundaryR] at hs
          rw [ht.1] at hs
          exact absurd hs (by decide)
      | cons c1 w'' =>
        cases w'' with
        | nil =>
          cases s with
          | nil => simp [List.take] at ht
          | cons c2 s' =>
            simp [List.take] at ht
            simp [boundaryR] at hs
            rw [ht.2] at hs
            exact absurd hs (by decide)
        | cons c2 w3 =>
          simp [List.take] at ht
          obtain ⟨h1, h2⟩ := ht
          subst h1
          subst h2
          cases w3 with
          | nil => exact hmod rfl
          | cons c4 w4 =>
            have hc4 : isWordChar c4 = true := hw c4 (by simp)
            simp [boundaryR, List.drop, hc4] at hb
    have hc : isWordChar c = true := hw c (List.mem_cons_self _ _)
    rw [List.cons_append, rmAux_zero_cons, if_neg hcond,
      rmAux_word_inner m w' s c hc (fun d hd => hw d (List.mem_cons_of_mem _ hd))]
    rfl

lemma rmAux_mod (m : List Char) (s : List Char) (prev : Option Char)
    (hprev : boundaryL prev = true) (hs : boundaryR s = true) :
    rmAux m 0 prev (['m', 'o', 'd'] ++ s) = m ++ rmAux m 0 (some 'd') s := by
  rw [List.cons_append, rmAux_zero_cons, if_pos ⟨rfl, rfl, hprev, hs⟩]
  rfl

lemma boundaryL_nextPrev (w : List Char) : ∀ (prev : Option Char), w ≠ [] →
    (∀ c ∈ w, isWordChar c = false) → boundaryL (nextPrev w prev) = true := by
  induction w with
  | nil => intro prev h _; exact absurd rfl h
  | cons c w' ih =>
    intro prev _ hall
    cases w' with
    | nil => simp [nextPrev, boundaryL, hall c (List.mem_cons_self _ _)]
    | cons c2 w'' =>
      exact ih (some c) (by simp) (fun d hd => hall d (List.mem_cons_of_mem _ hd))

lemma boundaryR_joinSegs (rest : List (Bool × List Char))
    (hwf : ∀ sg ∈ rest, segWF sg = true)
    (hhead : rest = [] ∨ ∃ w t, rest = (false, w) :: t) :
    boundaryR (joinSegs rest) = true := by
  rcases hhead with h | ⟨w, t, h⟩
  · subst h; rfl
  · subst h
    have hswf := hwf (false, w) (List.mem_cons_self _ _)
    simp [segWF, List.all_eq_true] at hswf
    obtain ⟨hne, hall⟩ := hswf
    cases w with
    | nil => simp at hne
    | cons c w' =>
      have hc : isWordChar c = false := hall c (List.mem_cons_self _ _)
      simp [joinSegs, boundaryR, hc]

lemma rmAux_joinSegs (m : List Char) (segs : List (Bool × List Char)) :
    ∀ (prev : Option Char),
    (∀ sg ∈ segs, segWF sg = true) → altern segs = true → headBoundary segs prev →
    rmAux m 0 prev (joinSegs segs) = substSegs m segs := by
  induction segs with
  | nil => intro prev _ _ _; rfl
  | cons sg rest ih =>
    intro prev hwf halt hhead
    obtain ⟨b, w⟩ := sg
    have hswf := hwf (b, w) (List.mem_cons_self _ _)
    have hwfr : ∀ x ∈ rest, segWF x = true := fun x hx => hwf x (List.mem_cons_of_mem _ hx)
    have haltr : altern rest = true := by
      cases rest with
      | nil => rfl
      | cons sg2 t =>
        simp [altern] at halt
        exact halt.2
    have hjoin : joinSegs ((b, w) :: rest) = w ++ joinSegs rest := rfl
    cases b with
    | true =>
      simp [segWF, List.all_eq_true] at hswf
      obtain ⟨hne, hall⟩ := hswf
      have hh : boundaryL prev = true := hhead
      have hrestShape : rest = [] ∨ ∃ w2 t, rest = (false, w2) :: t := by
        cases rest with
        | nil => exact Or.inl rfl
        | cons sg2 t =>
          obtain ⟨b2, w2⟩ := sg2
          simp [altern] at halt
          have hb2 : b2 = false := by
            cases b2
            · rfl
            · simp at halt
          exact Or.inr ⟨w2, t, by rw [hb2]⟩
      have hbr : boundaryR (joinSegs rest) = true := boundaryR_joinSegs rest hwfr hrestShape
      have hheadr : ∀ pr : Option Char, headBoundary rest pr := by
        intro pr
        rcases hrestShape with h | ⟨w2, t, h⟩ <;> subst h <;> trivial
      by_cases hmod : w = ['m', 'o', 'd']
      · subst hmod
        rw [hjoin, rmAux_mod m _ prev hh hbr, ih (some 'd') hwfr haltr (hheadr _)]
        rfl
      · rw [hjoin, rmAux_word_notmod m w _ prev hall hmod hh hbr,
          ih (nextPrev w prev) hwfr haltr (hheadr _)]
        simp [substSegs, hmod]
    | false =>
      simp [segWF, List.all_eq_true] at hswf
      obtain ⟨hne, hall⟩ := hswf
      have hall' : ∀ c ∈ w, isWordChar c = false := by
        intro c hc
        simpa using hall c hc
      have hheadr : headBoundary rest (nextPrev w prev) := by
        cases rest with
        | nil => trivial
        | cons sg2 t =>
          obtain ⟨b2, w2⟩ := sg2
          cases b2 with
          | false => trivial
          | true =>
            have hwne : w ≠ [] := by
              cases w
              · simp at hne
              · simp
            exact boundaryL_nextPrev w prev hwne hall'
      rw [hjoin, rmAux_nonword m w _ prev hall', ih (nextPrev w prev) hwfr haltr hheadr]
      rfl

/-- C6: on every combination string presented as its decomposition into
maximal word runs and non-word runs, platform resolution substitutes the
platform modifier for exactly the word runs equal to "mod" and leaves
every other token and separator unchanged; the substituted modifier is
"meta" when the platform is Mac-classified and "ctrl" on any other
classification. -/
theorem resolve_substitutes_mod_tokens (p : Platform) (segs : List (Bool × List Char))
    (h : (∀ sg ∈ segs, segWF sg = true) ∧ altern segs = true) :
    resolvePlatformModifier p ⟨joinSegs segs⟩ =
      ⟨substSegs (platformModifier p).data segs⟩ ∧
    (isMac p = true → platformModifier p = "meta") ∧
    (isMac p = false → platformModifier p = "ctrl") := by
  refine ⟨?_, ?_, ?_⟩
  · show String.mk (replaceMod (platformModifier p).data (joinSegs segs)) = _
    rw [replaceMod, rmAux_joinSegs _ segs none h.1 h.2 ?_]
    cases segs with
    | nil => trivial
    | cons sg t =>
      obtain ⟨b, w⟩ := sg
      cases b <;> trivial
  · cases p <;> simp [isMac, platformModifier]
  · cases p <;> simp [isMac, platformModifier]

/-- Decomposition of the combination string "ctrl+mod+s". -/
def segsDemo : List (Bool × List Char) :=
  [(true, ['c', 't', 'r', 'l']), (false, ['+']), (true, ['m', 'o', 'd']),
   (false, ['+']), (true, ['s'])]

theorem resolve_substitutes_mod_tokens_at_ctrl_mod_s :
    resolvePlatformModifier Platform.mac ⟨joinSegs segsDemo⟩ =
      ⟨substSegs (platformModifier Platform.mac).data segsDemo⟩ ∧
    resolvePlatformModifier Platform.mac "ctrl+mod+s" = "ctrl+meta+s" ∧
    resolvePlatformModifier Platform.windows "ctrl+mod+s" = "ctrl+ctrl+s" :=
  ⟨(resolve_substitutes_mod_tokens Platform.mac segsDemo ⟨by decide, by decide⟩).1,
   by decide, by decide⟩

end Modkey
